import Mathlib

set_option autoImplicit false

universe u

/-! # Shallow embedding of `smolvec` (`src/lib.rs`)

`SmolVec<T>` is a growable vector with small-vector optimization: up to
`INLINE_CAPACITY` elements live in an inline block, larger vectors move to a
heap buffer.  Buffers (the inline block and heap allocations) are modelled as
`List (Option α)`: a slot holds `some x` once a value `x` has been written
into it by `ptr::write`, and `none` while it is uninitialized memory.  Reading
an uninitialized slot is undefined behaviour in Rust; here it yields `none`.
`len` and capacities are `Nat` (a `usize` in a regime far from overflow). -/

/-- `const INLINE_CAPACITY: usize = 16;` (src/lib.rs:15). -/
def INLINE_CAPACITY : Nat := 16

/-- `enum Data<T> { Inline(MaybeUninit<[T; INLINE_CAPACITY]>), Heap { ptr: *mut T, capacity: usize } }`
(src/lib.rs:26-29).  The `Inline` block and the allocation behind `ptr` are
both modelled as their slot contents; `Heap` keeps the stored `capacity`
field. -/
inductive Data (α : Type u) where
  | Inline (buf : List (Option α))
  | Heap (buf : List (Option α)) (capacity : Nat)
deriving DecidableEq

/-- `pub struct SmolVec<T> { len: usize, data: Data<T> }` (src/lib.rs:21-24). -/
structure SmolVec (α : Type u) where
  len : Nat
  data : Data α
deriving DecidableEq

variable {α : Type u}

/-- `SmolVec::capacity` (src/lib.rs:84-89): `INLINE_CAPACITY` when `Inline`,
the stored capacity field when `Heap`. -/
def SmolVec.capacity (v : SmolVec α) : Nat :=
  match v.data with
  | .Inline _ => INLINE_CAPACITY
  | .Heap _ c => c

/-- The active buffer, i.e. the memory reached through `as_ptr`/`as_mut_ptr`
(src/lib.rs:129-141): the inline block when `Inline`, the heap allocation
when `Heap`. -/
def SmolVec.buf (v : SmolVec α) : List (Option α) :=
  match v.data with
  | .Inline b => b
  | .Heap b _ => b

/-- Whether the active storage variant is `Data::Heap`. -/
def SmolVec.isHeap (v : SmolVec α) : Bool :=
  match v.data with
  | .Inline _ => false
  | .Heap _ _ => true

/-- `ptr::read(self.as_ptr().add(i))`: the contents of slot `i` of the active
buffer.  `none` models reading an uninitialized (or out-of-bounds) slot,
which is undefined behaviour in the Rust source. -/
def SmolVec.readSlot (v : SmolVec α) (i : Nat) : Option α :=
  v.buf.getD i none

/-- `ptr::write(self.as_mut_ptr().add(i), x)`: overwrite slot `i` of the
active buffer, keeping the active variant.  The written contents are an
`Option α` so that `Clone` (which re-writes whatever a source slot holds)
can be expressed; `push` always writes `some x`. -/
def SmolVec.writeSlot (v : SmolVec α) (i : Nat) (x : Option α) : SmolVec α :=
  { v with data :=
      match v.data with
      | .Inline b => .Inline (b.set i x)
      | .Heap b c => .Heap (b.set i x) c }

/-- `SmolVec::new` (src/lib.rs:33-38): empty, inline, all slots uninitialized. -/
def SmolVec.new (α : Type u) : SmolVec α :=
  { len := 0, data := .Inline (List.replicate INLINE_CAPACITY none) }

/-- `SmolVec::with_capacity` (src/lib.rs:41-52): inline when the request is at
most `INLINE_CAPACITY`, otherwise a fresh uninitialized heap allocation of
exactly the requested capacity. -/
def SmolVec.with_capacity (α : Type u) (capacity : Nat) : SmolVec α :=
  if capacity ≤ INLINE_CAPACITY then SmolVec.new α
  else { len := 0, data := .Heap (List.replicate capacity none) capacity }

/-- `SmolVec::grow` (src/lib.rs:101-127): compute the new capacity (doubling,
with the `capacity() == 0` special case jumping to `INLINE_CAPACITY`),
allocate a fresh buffer of that many slots, `ptr::copy_nonoverlapping` the
first `len` slots of the old active buffer into it, and install it as the
`Heap` variant.  The deallocation of a previous heap buffer has no
observable effect on the functional state. -/
def SmolVec.grow (v : SmolVec α) : SmolVec α :=
  let new_capacity := if v.capacity = 0 then INLINE_CAPACITY else v.capacity * 2
  let new_buf := v.buf.take v.len ++ List.replicate (new_capacity - v.len) none
  { v with data := .Heap new_buf new_capacity }

/-- Body of `SmolVec::push` with the slot contents generalized to `Option α`
(see `SmolVec.writeSlot`): grow if full, raw-write into slot `len`,
increment `len`. -/
def SmolVec.pushRaw (v : SmolVec α) (x : Option α) : SmolVec α :=
  let v1 := if v.len = v.capacity then v.grow else v
  let v2 := v1.writeSlot v1.len x
  { v2 with len := v2.len + 1 }

/-- `SmolVec::push` (src/lib.rs:55-64). -/
def SmolVec.push (v : SmolVec α) (x : α) : SmolVec α :=
  v.pushRaw (some x)

/-- `SmolVec::pop` (src/lib.rs:67-77): `None` and no state change when empty,
otherwise decrement `len` and `ptr::read` slot `len` (the former last slot,
whose contents are left in place, merely no longer counted). -/
def SmolVec.pop (v : SmolVec α) : Option α × SmolVec α :=
  if v.len = 0 then (none, v)
  else
    let v1 : SmolVec α := { v with len := v.len - 1 }
    (v1.readSlot v1.len, v1)

/-- The loop of `SmolVec::clear`, with explicit fuel: each iteration pops and
discards the result. -/
def SmolVec.clearLoop : SmolVec α → Nat → SmolVec α
  | v, 0 => v
  | v, n + 1 => SmolVec.clearLoop (v.pop).2 n

/-- `SmolVec::clear` (src/lib.rs:79-81): `while self.pop().is_some() {}`.
In the Rust source `pop()` returns `Some` exactly when `len != 0` (its
`ptr::read` always yields a `T`), so the loop runs exactly `len` times. -/
def SmolVec.clear (v : SmolVec α) : SmolVec α :=
  v.clearLoop v.len

/-- `SmolVec::is_empty` (src/lib.rs:97-99). -/
def SmolVec.is_empty (v : SmolVec α) : Bool :=
  v.len == 0

/-- The `Deref` slice `&self[..]` (src/lib.rs:164-170): the first `len` slots
of the active buffer.  Indexing, slicing and borrowed iteration all read
through this view. -/
def SmolVec.elems (v : SmolVec α) : List (Option α) :=
  v.buf.take v.len

/-- `Extend::extend` (src/lib.rs:268-274): push each produced item in order. -/
def SmolVec.extend (v : SmolVec α) (xs : List α) : SmolVec α :=
  xs.foldl SmolVec.push v

/-- `FromIterator::from_iter` (src/lib.rs:276-282): `new` then `extend`. -/
def SmolVec.from_iter (xs : List α) : SmolVec α :=
  (SmolVec.new α).extend xs

/-- `Clone::clone` (src/lib.rs:192-198): `with_capacity(self.len)` then extend
with (clones of) the `len` slice elements in order.  Cloning re-writes
whatever each source slot holds, hence the fold of `pushRaw` over the raw
slot contents. -/
def SmolVec.clone (v : SmolVec α) : SmolVec α :=
  v.elems.foldl SmolVec.pushRaw (SmolVec.with_capacity α v.len)

/-- `PartialEq::eq` (src/lib.rs:206-210): `self.len() == other.len() &&
self.iter().eq(other.iter())`; the iterators walk the `Deref` slices, and
`Iterator::eq` compares them element by element. -/
def SmolVec.eqv [BEq α] (v w : SmolVec α) : Bool :=
  v.len == w.len && v.elems == w.elems

/-- Popping `n` times in a row, collecting each result in call order. -/
def SmolVec.popN : SmolVec α → Nat → List (Option α) × SmolVec α
  | v, 0 => ([], v)
  | v, n + 1 =>
    let p := v.pop
    let q := SmolVec.popN p.2 n
    (p.1 :: q.1, q.2)

/-- Observable memory-management events of the unsafe code: `readSlot i` is a
`ptr::read` of slot `i` that transfers ownership out, `dropSlot i` runs the
element destructor on slot `i` (`ptr::drop_in_place`), `deallocHeap c`
releases a heap allocation of capacity `c` (`alloc::dealloc`). -/
inductive MemEvent where
  | readSlot (i : Nat)
  | dropSlot (i : Nat)
  | deallocHeap (capacity : Nat)
deriving DecidableEq

/-- Events performed by the explicit body of `SmolVec::into_vec`
(src/lib.rs:143-161): `ptr::read` slots `0..len` in order into the
destination `Vec`, then `alloc::dealloc` the heap buffer if the `Heap`
variant is active. -/
def SmolVec.intoVecBodyTrace (v : SmolVec α) : List MemEvent :=
  (List.range v.len).map MemEvent.readSlot ++
    (match v.data with
     | .Inline _ => []
     | .Heap _ c => [MemEvent.deallocHeap c])

/-- Events performed by `Drop::drop` (src/lib.rs:178-190):
`ptr::drop_in_place(&mut self[..])` runs the destructor of each of the
`len` slice slots, then the heap buffer is deallocated if active. -/
def SmolVec.dropTrace (v : SmolVec α) : List MemEvent :=
  (List.range v.len).map MemEvent.dropSlot ++
    (match v.data with
     | .Inline _ => []
     | .Heap _ c => [MemEvent.deallocHeap c])

/-- Full event trace of a call to `into_vec(self)`.  `SmolVec` implements
`Drop`, `into_vec` takes `self` by value, never moves out of it (the
`if let` binds only `Copy` fields) and never calls `mem::forget`, so when
`self` goes out of scope at the end of `into_vec` Rust runs `Drop::drop`
on it with `len` and `data` unchanged: the observable trace is the body's
events followed by the drop's events. -/
def SmolVec.intoVecTrace (v : SmolVec α) : List MemEvent :=
  v.intoVecBodyTrace ++ v.dropTrace

/-- The values moved into the destination `Vec` by `into_vec`'s loop, in
order. -/
def SmolVec.intoVecResult (v : SmolVec α) : List (Option α) :=
  (List.range v.len).map v.readSlot

/-- Representation well-formedness: the modelled buffer has exactly
`capacity()` slots, and `len` does not exceed it. -/
def SmolVec.wf (v : SmolVec α) : Prop :=
  v.buf.length = v.capacity ∧ v.len ≤ v.capacity

instance (v : SmolVec α) : Decidable v.wf :=
  inferInstanceAs (Decidable (_ ∧ _))

/-- The container `v` faithfully holds the element sequence `l`: it is
well-formed, its length is `l.length`, and the `len` slots of the `Deref`
slice hold exactly the values of `l`, all initialized. -/
def Models (v : SmolVec α) (l : List α) : Prop :=
  v.wf ∧ v.len = l.length ∧ v.elems = l.map some

instance [DecidableEq α] (v : SmolVec α) (l : List α) : Decidable (Models v l) :=
  inferInstanceAs (Decidable (_ ∧ _ ∧ _))

/-- Containers reachable through the public interface of the crate. -/
inductive Reachable {α : Type u} : SmolVec α → Prop where
  | new : Reachable (SmolVec.new α)
  | with_capacity (c : Nat) : Reachable (SmolVec.with_capacity α c)
  | push (v : SmolVec α) (x : α) : Reachable v → Reachable (v.push x)
  | pop (v : SmolVec α) : Reachable v → Reachable (v.pop).2
  | clear (v : SmolVec α) : Reachable v → Reachable v.clear
  | extend (v : SmolVec α) (xs : List α) : Reachable v → Reachable (v.extend xs)
  | from_iter (xs : List α) : Reachable (SmolVec.from_iter xs)
  | clone (v : SmolVec α) : Reachable v → Reachable v.clone

/-- One push's effect on the `(len, isHeap, capacity)` triple: it depends only
on that triple, not on the pushed value or the buffer contents. -/
def stepShape (s : Nat × Bool × Nat) : Nat × Bool × Nat :=
  if s.1 = s.2.2 then
    (s.1 + 1, true, if s.2.2 = 0 then INLINE_CAPACITY else s.2.2 * 2)
  else
    (s.1 + 1, s.2.1, s.2.2)

/-- The `(len, isHeap, capacity)` triple of a container. -/
def SmolVec.shape (v : SmolVec α) : Nat × Bool × Nat :=
  (v.len, v.isHeap, v.capacity)

/-! ## Structural lemmas about the record and variant plumbing -/

theorem SmolVec.capacity_congr {v w : SmolVec α} (h : v.data = w.data) :
    v.capacity = w.capacity := by
  unfold SmolVec.capacity
  rw [h]

theorem SmolVec.buf_congr {v w : SmolVec α} (h : v.data = w.data) :
    v.buf = w.buf := by
  unfold SmolVec.buf
  rw [h]

theorem SmolVec.isHeap_congr {v w : SmolVec α} (h : v.data = w.data) :
    v.isHeap = w.isHeap := by
  unfold SmolVec.isHeap
  rw [h]

@[simp] theorem SmolVec.capacity_mk_data (n : Nat) (w : SmolVec α) :
    (SmolVec.mk n w.data).capacity = w.capacity := rfl

@[simp] theorem SmolVec.buf_mk_data (n : Nat) (w : SmolVec α) :
    (SmolVec.mk n w.data).buf = w.buf := rfl

@[simp] theorem SmolVec.isHeap_mk_data (n : Nat) (w : SmolVec α) :
    (SmolVec.mk n w.data).isHeap = w.isHeap := rfl

@[simp] theorem SmolVec.len_writeSlot (v : SmolVec α) (i : Nat) (x : Option α) :
    (v.writeSlot i x).len = v.len := rfl

@[simp] theorem SmolVec.buf_writeSlot (v : SmolVec α) (i : Nat) (x : Option α) :
    (v.writeSlot i x).buf = v.buf.set i x := by
  cases v with
  | mk l d => cases d <;> rfl

@[simp] theorem SmolVec.capacity_writeSlot (v : SmolVec α) (i : Nat) (x : Option α) :
    (v.writeSlot i x).capacity = v.capacity := by
  cases v with
  | mk l d => cases d <;> rfl

@[simp] theorem SmolVec.isHeap_writeSlot (v : SmolVec α) (i : Nat) (x : Option α) :
    (v.writeSlot i x).isHeap = v.isHeap := by
  cases v with
  | mk l d => cases d <;> rfl

@[simp] theorem SmolVec.len_grow (v : SmolVec α) : (v.grow).len = v.len := rfl

@[simp] theorem SmolVec.capacity_grow (v : SmolVec α) :
    (v.grow).capacity = if v.capacity = 0 then INLINE_CAPACITY else v.capacity * 2 := rfl

@[simp] theorem SmolVec.isHeap_grow (v : SmolVec α) : (v.grow).isHeap = true := rfl

theorem SmolVec.buf_grow (v : SmolVec α) :
    (v.grow).buf = v.buf.take v.len ++
      List.replicate ((if v.capacity = 0 then INLINE_CAPACITY else v.capacity * 2) - v.len) none := rfl

@[simp] theorem SmolVec.data_pop (v : SmolVec α) : (v.pop).2.data = v.data := by
  unfold SmolVec.pop
  split <;> rfl

@[simp] theorem SmolVec.len_pop (v : SmolVec α) : (v.pop).2.len = v.len - 1 := by
  unfold SmolVec.pop
  split
  · next h => simp [h]
  · rfl

@[simp] theorem SmolVec.capacity_pop (v : SmolVec α) : (v.pop).2.capacity = v.capacity :=
  SmolVec.capacity_congr (SmolVec.data_pop v)

@[simp] theorem SmolVec.buf_pop (v : SmolVec α) : (v.pop).2.buf = v.buf :=
  SmolVec.buf_congr (SmolVec.data_pop v)

@[simp] theorem SmolVec.isHeap_pop (v : SmolVec α) : (v.pop).2.isHeap = v.isHeap :=
  SmolVec.isHeap_congr (SmolVec.data_pop v)

theorem SmolVec.data_clearLoop (v : SmolVec α) (n : Nat) :
    (v.clearLoop n).data = v.data := by
  induction n generalizing v with
  | zero => rfl
  | succ n ih =>
    show ((v.pop).2.clearLoop n).data = v.data
    rw [ih, SmolVec.data_pop]

theorem SmolVec.len_clearLoop (v : SmolVec α) (n : Nat) (h : v.len = n) :
    (v.clearLoop n).len = 0 := by
  induction n generalizing v with
  | zero => simpa [SmolVec.clearLoop] using h
  | succ n ih =>
    show ((v.pop).2.clearLoop n).len = 0
    exact ih _ (by rw [SmolVec.len_pop, h]; omega)

@[simp] theorem SmolVec.data_clear (v : SmolVec α) : (v.clear).data = v.data :=
  SmolVec.data_clearLoop v v.len

@[simp] theorem SmolVec.len_clear (v : SmolVec α) : (v.clear).len = 0 :=
  SmolVec.len_clearLoop v v.len rfl

@[simp] theorem SmolVec.len_pushRaw (v : SmolVec α) (x : Option α) :
    (v.pushRaw x).len = v.len + 1 := by
  unfold SmolVec.pushRaw
  by_cases h : v.len = v.capacity <;> simp [h]

theorem SmolVec.capacity_pushRaw (v : SmolVec α) (x : Option α) :
    (v.pushRaw x).capacity =
      if v.len = v.capacity then
        (if v.capacity = 0 then INLINE_CAPACITY else v.capacity * 2)
      else v.capacity := by
  unfold SmolVec.pushRaw
  by_cases h : v.len = v.capacity <;> simp [h]

theorem SmolVec.isHeap_pushRaw (v : SmolVec α) (x : Option α) :
    (v.pushRaw x).isHeap = if v.len = v.capacity then true else v.isHeap := by
  unfold SmolVec.pushRaw
  by_cases h : v.len = v.capacity <;> simp [h]

theorem SmolVec.capacity_le_pushRaw (v : SmolVec α) (x : Option α) :
    v.capacity ≤ (v.pushRaw x).capacity := by
  rw [SmolVec.capacity_pushRaw]
  by_cases h : v.len = v.capacity <;> by_cases h0 : v.capacity = 0 <;>
    simp [h, h0, INLINE_CAPACITY] <;> omega

theorem SmolVec.isHeap_pushRaw_of (v : SmolVec α) (x : Option α) (h : v.isHeap = true) :
    (v.pushRaw x).isHeap = true := by
  rw [SmolVec.isHeap_pushRaw]
  by_cases hf : v.len = v.capacity <;> simp [hf, h]

/-! ## Well-formedness and the `Deref` slice under the operations -/

theorem take_succ_set_eq {β : Type u} (l : List β) (n : Nat) (a : β) (h : n < l.length) :
    (l.set n a).take (n + 1) = l.take n ++ [a] := by
  rw [List.set_eq_take_append_cons_drop, if_pos h, List.take_append_eq_append_take,
    List.length_take_of_le (Nat.le_of_lt h), List.take_take]
  simp

theorem SmolVec.length_elems (v : SmolVec α) (h : v.wf) : v.elems.length = v.len := by
  obtain ⟨h1, h2⟩ := h
  unfold SmolVec.elems
  rw [List.length_take]
  omega

theorem SmolVec.wf_grow {v : SmolVec α} (h : v.wf) : (v.grow).wf := by
  obtain ⟨h1, h2⟩ := h
  constructor
  · rw [SmolVec.buf_grow, List.length_append, List.length_take, List.length_replicate,
      SmolVec.capacity_grow]
    by_cases h0 : v.capacity = 0 <;> simp only [h0, if_true, if_false, INLINE_CAPACITY] <;> omega
  · rw [SmolVec.len_grow, SmolVec.capacity_grow]
    by_cases h0 : v.capacity = 0 <;> simp only [h0, if_true, if_false, INLINE_CAPACITY] <;> omega

theorem SmolVec.elems_grow {v : SmolVec α} (h : v.wf) : (v.grow).elems = v.elems := by
  obtain ⟨h1, h2⟩ := h
  show (v.grow).buf.take (v.grow).len = v.elems
  rw [SmolVec.len_grow, SmolVec.buf_grow, List.take_append_of_le_length, List.take_take]
  · simp [SmolVec.elems]
  · rw [List.length_take]
    omega

theorem SmolVec.len_lt_capacity_grow {v : SmolVec α} (h : v.wf) :
    v.len < (v.grow).capacity := by
  obtain ⟨h1, h2⟩ := h
  rw [SmolVec.capacity_grow]
  by_cases h0 : v.capacity = 0 <;> simp only [h0, if_true, if_false, INLINE_CAPACITY] <;> omega

theorem SmolVec.pushRaw_spec {v : SmolVec α} (x : Option α) (h : v.wf) :
    (v.pushRaw x).wf ∧ (v.pushRaw x).len = v.len + 1 ∧
      (v.pushRaw x).elems = v.elems ++ [x] := by
  unfold SmolVec.pushRaw
  set w := if v.len = v.capacity then v.grow else v with hw
  have hwwf : w.wf := by
    rw [hw]; split
    · exact SmolVec.wf_grow h
    · exact h
  have hwlen : w.len = v.len := by
    rw [hw]; split
    · exact SmolVec.len_grow v
    · rfl
  have hwelems : w.elems = v.elems := by
    rw [hw]; split
    · exact SmolVec.elems_grow h
    · rfl
  have hwlt : w.len < w.capacity := by
    rw [hw]; split
    · next hfull =>
      rw [SmolVec.len_grow]
      exact SmolVec.len_lt_capacity_grow h
    · next hfull =>
      have := h.2
      omega
  have hbuflt : w.len < w.buf.length := by
    rw [hwwf.1]
    exact hwlt
  refine ⟨⟨?_, ?_⟩, ?_, ?_⟩
  · show (SmolVec.mk ((w.writeSlot w.len x).len + 1) (w.writeSlot w.len x).data).buf.length =
      (SmolVec.mk ((w.writeSlot w.len x).len + 1) (w.writeSlot w.len x).data).capacity
    simp [hwwf.1]
  · show (w.writeSlot w.len x).len + 1 ≤
      (SmolVec.mk ((w.writeSlot w.len x).len + 1) (w.writeSlot w.len x).data).capacity
    simp
    omega
  · show (w.writeSlot w.len x).len + 1 = v.len + 1
    simp [hwlen]
  · show (SmolVec.mk ((w.writeSlot w.len x).len + 1) (w.writeSlot w.len x).data).elems =
      v.elems ++ [x]
    show (SmolVec.mk ((w.writeSlot w.len x).len + 1) (w.writeSlot w.len x).data).buf.take
      ((w.writeSlot w.len x).len + 1) = v.elems ++ [x]
    simp only [SmolVec.buf_mk_data, SmolVec.buf_writeSlot, SmolVec.len_writeSlot]
    rw [take_succ_set_eq _ _ _ hbuflt, ← hwelems]
    rfl

/-! ## The abstract-list simulation: `Models` -/

theorem models_new : Models (SmolVec.new α) [] := by
  refine ⟨⟨rfl, ?_⟩, rfl, rfl⟩
  exact Nat.zero_le _

theorem models_with_capacity (c : Nat) : Models (SmolVec.with_capacity α c) [] := by
  unfold SmolVec.with_capacity
  split
  · exact models_new
  · exact ⟨⟨by simp [SmolVec.buf, SmolVec.capacity], by simp [SmolVec.capacity]⟩, rfl, rfl⟩

theorem models_pushRaw {v : SmolVec α} {l : List α} (h : Models v l) (x : α) :
    Models (v.pushRaw (some x)) (l ++ [x]) := by
  obtain ⟨hwf, hlen, helems⟩ := h
  obtain ⟨h1, h2, h3⟩ := SmolVec.pushRaw_spec (some x) hwf
  exact ⟨h1, by simp [h2, hlen], by simp [h3, helems]⟩

theorem models_push {v : SmolVec α} {l : List α} (h : Models v l) (x : α) :
    Models (v.push x) (l ++ [x]) :=
  models_pushRaw h x

theorem models_extend {v : SmolVec α} {l : List α} (h : Models v l) (xs : List α) :
    Models (v.extend xs) (l ++ xs) := by
  induction xs generalizing v l with
  | nil => simpa [SmolVec.extend]
  | cons a t ih =>
    show Models ((v.push a).extend t) (l ++ a :: t)
    have := ih (models_push h a)
    simpa using this

theorem models_from_iter (xs : List α) : Models (SmolVec.from_iter xs) xs := by
  have := models_extend (models_new (α := α)) xs
  simpa [SmolVec.from_iter] using this

theorem models_foldl_pushRaw {w : SmolVec α} {m : List α} (hw : Models w m) (l : List α) :
    Models ((l.map some).foldl SmolVec.pushRaw w) (m ++ l) := by
  induction l generalizing w m with
  | nil => simpa
  | cons a t ih =>
    simp only [List.map_cons, List.foldl_cons]
    have := ih (models_pushRaw hw a)
    simpa using this

theorem models_clone {v : SmolVec α} {l : List α} (h : Models v l) :
    Models v.clone l := by
  unfold SmolVec.clone
  rw [h.2.2]
  have := models_foldl_pushRaw (models_with_capacity (α := α) v.len) l
  simpa using this

theorem pop_models_nil {v : SmolVec α} (h : Models v []) : v.pop = (none, v) := by
  have h0 : v.len = 0 := h.2.1
  unfold SmolVec.pop
  rw [if_pos h0]

theorem pop_models_concat {v : SmolVec α} {l : List α} {x : α}
    (h : Models v (l ++ [x])) : (v.pop).1 = some x ∧ Models (v.pop).2 l := by
  obtain ⟨⟨hb, hc⟩, hlen, helems⟩ := h
  have helemsB : List.take v.len v.buf = List.map some l ++ [some x] := by
    simpa [SmolVec.elems] using helems
  have hlen' : v.len = l.length + 1 := by simpa using hlen
  have hne : ¬ v.len = 0 := by omega
  have hlb : l.length < v.buf.length := by omega
  have hread : v.buf.getD l.length none = some x := by
    rw [List.getD_eq_getElem _ _ hlb]
    have htake : (v.buf.take v.len)[l.length]? = v.buf[l.length]? :=
      List.getElem?_take_of_lt (by omega)
    have hcat : (v.buf.take v.len)[l.length]? = some (some x) := by
      rw [helemsB]
      have : (l.map some ++ [some x])[(l.map some).length]? = some (some x) :=
        List.getElem?_concat_length _ _
      simpa using this
    have : v.buf[l.length]? = some (some x) := by rw [← htake, hcat]
    have hgl := List.getElem?_eq_getElem (l := v.buf) (n := l.length) hlb
    rw [hgl] at this
    exact Option.some_injective _ this
  unfold SmolVec.pop
  rw [if_neg hne]
  refine ⟨?_, ⟨⟨by simpa using hb, by simp; omega⟩, by simp [hlen'], ?_⟩⟩
  · show ((SmolVec.mk (v.len - 1) v.data : SmolVec α)).readSlot (v.len - 1) = some x
    unfold SmolVec.readSlot
    have hbuf : ((SmolVec.mk (v.len - 1) v.data : SmolVec α)).buf = v.buf := rfl
    rw [hbuf, hlen']
    simpa using hread
  · show ((SmolVec.mk (v.len - 1) v.data : SmolVec α)).buf.take (v.len - 1) = l.map some
    have hbuf : ((SmolVec.mk (v.len - 1) v.data : SmolVec α)).buf = v.buf := rfl
    rw [hbuf, hlen']
    have hsplit : v.buf.take (l.length + 1 - 1) = (v.buf.take v.len).take l.length := by
      rw [List.take_take, hlen']
      congr 1
      omega
    rw [hsplit, helemsB]
    have : (l.map some ++ [some x]).take (l.map some).length = l.map some :=
      List.take_left _ _
    simpa using this

theorem popN_models {v : SmolVec α} {l : List α} (h : Models v l) :
    (v.popN l.length).1 = l.reverse.map some ∧ Models (v.popN l.length).2 [] := by
  induction l using List.reverseRecOn generalizing v with
  | nil => exact ⟨rfl, h⟩
  | append_singleton t x ih =>
    obtain ⟨h1, h2⟩ := pop_models_concat h
    obtain ⟨ih1, ih2⟩ := ih h2
    have hlen : (t ++ [x]).length = t.length + 1 := by simp
    rw [hlen]
    have hfst : (v.popN (t.length + 1)).1 = (v.pop).1 :: ((v.pop).2.popN t.length).1 := rfl
    have hsnd : (v.popN (t.length + 1)).2 = ((v.pop).2.popN t.length).2 := rfl
    constructor
    · rw [hfst, h1, ih1]
      simp
    · rw [hsnd]
      exact ih2

/-! ## Shape evolution and monotonicity -/

theorem SmolVec.shape_new : (SmolVec.new α).shape = (0, false, INLINE_CAPACITY) := rfl

theorem SmolVec.shape_pushRaw (v : SmolVec α) (x : Option α) :
    (v.pushRaw x).shape = stepShape v.shape := by
  unfold SmolVec.shape stepShape
  by_cases h : v.len = v.capacity <;>
    simp [h, SmolVec.isHeap_pushRaw, SmolVec.capacity_pushRaw]

theorem SmolVec.shape_push (v : SmolVec α) (x : α) :
    (v.push x).shape = stepShape v.shape :=
  SmolVec.shape_pushRaw v (some x)

theorem SmolVec.shape_extend (v : SmolVec α) (xs : List α) :
    (v.extend xs).shape = stepShape^[xs.length] v.shape := by
  induction xs generalizing v with
  | nil => rfl
  | cons a t ih =>
    show ((v.push a).extend t).shape = stepShape^[t.length + 1] v.shape
    rw [ih, Function.iterate_succ_apply, SmolVec.shape_push]

theorem stepShape_iter_small (n : Nat) (h : n ≤ INLINE_CAPACITY) :
    stepShape^[n] (0, false, INLINE_CAPACITY) = (n, false, INLINE_CAPACITY) := by
  induction n with
  | zero => rfl
  | succ n ih =>
    rw [Function.iterate_succ_apply', ih (by omega)]
    unfold stepShape INLINE_CAPACITY
    have hne : ¬ n = 16 := by
      unfold INLINE_CAPACITY at h
      omega
    simp [hne]

theorem SmolVec.capacity_with_capacity (c : Nat) :
    (SmolVec.with_capacity α c).capacity =
      if c ≤ INLINE_CAPACITY then INLINE_CAPACITY else c := by
  by_cases h : c ≤ INLINE_CAPACITY <;>
    simp [SmolVec.with_capacity, h, SmolVec.new, SmolVec.capacity]

theorem SmolVec.isHeap_with_capacity_le {c : Nat} (h : c ≤ INLINE_CAPACITY) :
    (SmolVec.with_capacity α c).isHeap = false := by
  simp [SmolVec.with_capacity, h, SmolVec.new, SmolVec.isHeap]

theorem SmolVec.capacity_le_extend (v : SmolVec α) (xs : List α) :
    v.capacity ≤ (v.extend xs).capacity := by
  induction xs generalizing v with
  | nil => exact Nat.le_refl _
  | cons a t ih =>
    show v.capacity ≤ ((v.push a).extend t).capacity
    exact Nat.le_trans (SmolVec.capacity_le_pushRaw v (some a)) (ih _)

theorem SmolVec.isHeap_extend_of (v : SmolVec α) (xs : List α) (h : v.isHeap = true) :
    (v.extend xs).isHeap = true := by
  induction xs generalizing v with
  | nil => exact h
  | cons a t ih => exact ih _ (SmolVec.isHeap_pushRaw_of v (some a) h)

theorem SmolVec.capacity_le_foldl_pushRaw (w : SmolVec α) (os : List (Option α)) :
    w.capacity ≤ (os.foldl SmolVec.pushRaw w).capacity := by
  induction os generalizing w with
  | nil => exact Nat.le_refl _
  | cons a t ih => exact Nat.le_trans (SmolVec.capacity_le_pushRaw w a) (ih _)

@[simp] theorem SmolVec.capacity_clear (v : SmolVec α) : (v.clear).capacity = v.capacity :=
  SmolVec.capacity_congr (SmolVec.data_clear v)

@[simp] theorem SmolVec.isHeap_clear (v : SmolVec α) : (v.clear).isHeap = v.isHeap :=
  SmolVec.isHeap_congr (SmolVec.data_clear v)

theorem SmolVec.capacity_le_grow (v : SmolVec α) : v.capacity ≤ (v.grow).capacity := by
  rw [SmolVec.capacity_grow]
  by_cases h0 : v.capacity = 0
  · simp [h0]
  · simp only [h0, if_false]
    omega

theorem reachable_inline_le_capacity {v : SmolVec α} (h : Reachable v) :
    INLINE_CAPACITY ≤ v.capacity := by
  induction h with
  | new => exact Nat.le_refl _
  | with_capacity c =>
    rw [SmolVec.capacity_with_capacity]
    split
    · exact Nat.le_refl _
    · omega
  | push v x hv ih => exact Nat.le_trans ih (SmolVec.capacity_le_pushRaw v (some x))
  | pop v hv ih => rw [SmolVec.capacity_pop]; exact ih
  | clear v hv ih => rw [SmolVec.capacity_clear]; exact ih
  | extend v xs hv ih => exact Nat.le_trans ih (SmolVec.capacity_le_extend v xs)
  | from_iter xs => exact SmolVec.capacity_le_extend (SmolVec.new α) xs
  | clone v hv ih =>
    have h1 : INLINE_CAPACITY ≤ (SmolVec.with_capacity α v.len).capacity := by
      rw [SmolVec.capacity_with_capacity]
      split
      · exact Nat.le_refl _
      · omega
    exact Nat.le_trans h1 (SmolVec.capacity_le_foldl_pushRaw _ _)

theorem readSlot_models {v : SmolVec α} {l : List α} (h : Models v l) {i : Nat}
    (hi : i < l.length) : v.readSlot i = l[i]? := by
  obtain ⟨⟨hb, hc⟩, hlen, helems⟩ := h
  have helemsB : List.take v.len v.buf = List.map some l := by
    simpa [SmolVec.elems] using helems
  have hlb : i < v.buf.length := by omega
  unfold SmolVec.readSlot
  rw [List.getD_eq_getElem _ _ hlb]
  have htake : (v.buf.take v.len)[i]? = v.buf[i]? := List.getElem?_take_of_lt (by omega)
  rw [helemsB] at htake
  have h2 : (List.map some l)[i]? = some (some l[i]) := by
    rw [List.getElem?_map, List.getElem?_eq_getElem hi]
    rfl
  have h3 : v.buf[i]? = some (some l[i]) := by rw [← htake]; exact h2
  rw [List.getElem?_eq_getElem hlb] at h3
  rw [Option.some_injective _ h3, List.getElem?_eq_getElem hi]

/-! ## Claim theorems -/

/-- C1 (code bug at the failing input): the explicit body of `into_vec` does
move the `len` elements out in order (`intoVecResult`), but `SmolVec`
implements `Drop` and `into_vec` consumes `self` without `mem::forget`, so
`Drop::drop` runs on the fully intact `self` when it goes out of scope at the
end of `into_vec`.  On the container built by pushing 0..17 (Heap mode,
capacity 32) the resulting event trace releases the heap allocation of
capacity 32 twice (double free) and re-runs an element destructor on the
already-moved slot 0 — contradicting the claim that the source slots are not
re-destructed and the heap allocation is not released a second time. -/
theorem into_vec_double_free :
    ((SmolVec.new Nat).extend (List.range 17)).intoVecResult = (List.range 17).map some ∧
    (((SmolVec.new Nat).extend (List.range 17)).intoVecTrace).count
      (MemEvent.deallocHeap 32) = 2 ∧
    MemEvent.dropSlot 0 ∈ ((SmolVec.new Nat).extend (List.range 17)).intoVecTrace := by
  decide

/-- C2: pushing v1..vN onto a newly created container and then popping N times
yields vN..v1 (each wrapped in `some`, the Rust `Some`), leaves the container
empty, and one further pop returns `none` (the Rust `None`). -/
theorem push_then_pop_lifo (xs : List α) :
    (((SmolVec.new α).extend xs).popN xs.length).1 = xs.reverse.map some ∧
    (((SmolVec.new α).extend xs).popN xs.length).2.len = 0 ∧
    ((((SmolVec.new α).extend xs).popN xs.length).2.pop).1 = none := by
  have h0 : Models ((SmolVec.new α).extend xs) xs := by
    have := models_extend (models_new (α := α)) xs
    simpa using this
  obtain ⟨h1, h2⟩ := popN_models h0
  refine ⟨h1, h2.2.1, ?_⟩
  rw [pop_models_nil h2]

/-- C3: pushing the (INLINE_CAPACITY + 1)-th element onto a new container
moves the storage to the Heap variant with capacity exactly
2 × INLINE_CAPACITY (hence ≥ INLINE_CAPACITY + 1), and every one of the
INLINE_CAPACITY + 1 elements is readable at its original position with its
original value. -/
theorem heap_transition_preserves_elements (xs : List α) (i : Nat)
    (h : xs.length = INLINE_CAPACITY + 1) (hi : i < xs.length) :
    ((SmolVec.new α).extend xs).isHeap = true ∧
    ((SmolVec.new α).extend xs).capacity = 2 * INLINE_CAPACITY ∧
    INLINE_CAPACITY + 1 ≤ ((SmolVec.new α).extend xs).capacity ∧
    ((SmolVec.new α).extend xs).readSlot i = xs[i]? := by
  have hs : ((SmolVec.new α).extend xs).shape = (17, true, 32) := by
    rw [SmolVec.shape_extend, SmolVec.shape_new, h]
    decide
  have hh : ((SmolVec.new α).extend xs).isHeap = true := congrArg (fun s => s.2.1) hs
  have hcap : ((SmolVec.new α).extend xs).capacity = 32 := congrArg (fun s => s.2.2) hs
  have hm : Models ((SmolVec.new α).extend xs) xs := by
    have := models_extend (models_new (α := α)) xs
    simpa using this
  exact ⟨hh, by rw [hcap]; decide, by rw [hcap]; decide, readSlot_models hm hi⟩

/-- Witness for C3 at the concrete input 0..17, read back at position 5. -/
theorem heap_transition_preserves_elements_witness :
    (List.range 17).length = INLINE_CAPACITY + 1 ∧ 5 < (List.range 17).length ∧
    (((SmolVec.new Nat).extend (List.range 17)).isHeap = true ∧
      ((SmolVec.new Nat).extend (List.range 17)).capacity = 2 * INLINE_CAPACITY ∧
      INLINE_CAPACITY + 1 ≤ ((SmolVec.new Nat).extend (List.range 17)).capacity ∧
      ((SmolVec.new Nat).extend (List.range 17)).readSlot 5 = (List.range 17)[5]?) :=
  ⟨by decide, by decide,
    heap_transition_preserves_elements (List.range 17) 5 (by decide) (by decide)⟩

/-- C4: after N ≤ INLINE_CAPACITY pushes onto a new container the storage is
still the Inline variant and capacity() equals INLINE_CAPACITY. -/
theorem small_stays_inline (xs : List α) (h : xs.length ≤ INLINE_CAPACITY) :
    ((SmolVec.new α).extend xs).isHeap = false ∧
    ((SmolVec.new α).extend xs).capacity = INLINE_CAPACITY := by
  have hs : ((SmolVec.new α).extend xs).shape = (xs.length, false, INLINE_CAPACITY) := by
    rw [SmolVec.shape_extend, SmolVec.shape_new, stepShape_iter_small xs.length h]
  exact ⟨congrArg (fun s => s.2.1) hs, congrArg (fun s => s.2.2) hs⟩

/-- Witness for C4 with three pushes. -/
theorem small_stays_inline_witness :
    [0, 1, 2].length ≤ INLINE_CAPACITY ∧
    (((SmolVec.new Nat).extend [0, 1, 2]).isHeap = false ∧
      ((SmolVec.new Nat).extend [0, 1, 2]).capacity = INLINE_CAPACITY) :=
  ⟨by decide, small_stays_inline [0, 1, 2] (by decide)⟩

/-- C5: a growth event leaves `len` unchanged, preserves the `len`-element
sequence at the same offsets, installs the Heap variant whose capacity is the
doubling-policy value — at least twice the old capacity, INLINE_CAPACITY when
the old capacity was measured as 0 — and leaves a free slot at index `len`. -/
theorem grow_postconditions (v : SmolVec α) (h : v.wf) :
    (v.grow).len = v.len ∧
    (v.grow).elems = v.elems ∧
    (v.grow).isHeap = true ∧
    (v.grow).capacity = (if v.capacity = 0 then INLINE_CAPACITY else v.capacity * 2) ∧
    2 * v.capacity ≤ (v.grow).capacity ∧
    v.len < (v.grow).capacity := by
  refine ⟨SmolVec.len_grow v, SmolVec.elems_grow h, SmolVec.isHeap_grow v,
    SmolVec.capacity_grow v, ?_, SmolVec.len_lt_capacity_grow h⟩
  rw [SmolVec.capacity_grow]
  by_cases h0 : v.capacity = 0
  · simp [h0]
  · simp only [h0, if_false]
    omega

/-- Witness for C5 on the freshly created container. -/
theorem grow_postconditions_witness :
    (SmolVec.new Nat).wf ∧
    ((SmolVec.new Nat).grow.len = (SmolVec.new Nat).len ∧
      (SmolVec.new Nat).grow.elems = (SmolVec.new Nat).elems ∧
      (SmolVec.new Nat).grow.isHeap = true ∧
      (SmolVec.new Nat).grow.capacity =
        (if (SmolVec.new Nat).capacity = 0 then INLINE_CAPACITY
         else (SmolVec.new Nat).capacity * 2) ∧
      2 * (SmolVec.new Nat).capacity ≤ (SmolVec.new Nat).grow.capacity ∧
      (SmolVec.new Nat).len < (SmolVec.new Nat).grow.capacity) :=
  ⟨by decide, grow_postconditions (SmolVec.new Nat) (by decide)⟩

/-- C6: pop is total: on an empty container it returns `none` (the Rust
`None`) and leaves the container unchanged; otherwise it returns the last
element and only decrements `len` by one. -/
theorem pop_total (v : SmolVec α) (l : List α) (h : Models v l) :
    (v.pop).1 = l.getLast? ∧
    (v.pop).2 = if v.len = 0 then v else { v with len := v.len - 1 } := by
  constructor
  · rcases List.eq_nil_or_concat l with rfl | ⟨t, x, rfl⟩
    · have h0 : v.len = 0 := h.2.1
      unfold SmolVec.pop
      rw [if_pos h0]
      rfl
    · rw [List.concat_eq_append] at h ⊢
      rw [(pop_models_concat h).1, List.getLast?_concat]
  · unfold SmolVec.pop
    by_cases h0 : v.len = 0 <;> simp [h0]

/-- Witness for C6 on a three-element container. -/
theorem pop_total_witness :
    Models (SmolVec.from_iter [10, 20, 30]) [10, 20, 30] ∧
    (((SmolVec.from_iter [10, 20, 30]).pop).1 = [10, 20, 30].getLast? ∧
      ((SmolVec.from_iter [10, 20, 30]).pop).2 =
        (if (SmolVec.from_iter [10, 20, 30]).len = 0 then SmolVec.from_iter [10, 20, 30]
         else { SmolVec.from_iter [10, 20, 30] with
                  len := (SmolVec.from_iter [10, 20, 30]).len - 1 })) :=
  ⟨by decide, pop_total (SmolVec.from_iter [10, 20, 30]) [10, 20, 30] (by decide)⟩

/-- C7: clear empties the container (len = 0) while `data` — hence the
capacity, the active storage variant and any heap allocation — is unchanged:
nothing is deallocated. -/
theorem clear_empties_keeps_storage (v : SmolVec α) :
    (v.clear).len = 0 ∧ (v.clear).data = v.data ∧
    (v.clear).capacity = v.capacity ∧ (v.clear).isHeap = v.isHeap :=
  ⟨SmolVec.len_clear v, SmolVec.data_clear v, SmolVec.capacity_clear v, SmolVec.isHeap_clear v⟩

/-- C8: once the storage is the Heap variant, push, pop, clear, extend and
growth all keep it in Heap mode and never decrease the capacity. -/
theorem heap_mode_monotone (v : SmolVec α) (x : α) (xs : List α) (h : v.isHeap = true) :
    ((v.push x).isHeap = true ∧ v.capacity ≤ (v.push x).capacity) ∧
    ((v.pop).2.isHeap = true ∧ v.capacity ≤ (v.pop).2.capacity) ∧
    ((v.clear).isHeap = true ∧ v.capacity ≤ (v.clear).capacity) ∧
    ((v.extend xs).isHeap = true ∧ v.capacity ≤ (v.extend xs).capacity) ∧
    ((v.grow).isHeap = true ∧ v.capacity ≤ (v.grow).capacity) := by
  refine ⟨⟨SmolVec.isHeap_pushRaw_of v (some x) h, SmolVec.capacity_le_pushRaw v (some x)⟩,
    ⟨?_, ?_⟩, ⟨?_, ?_⟩,
    ⟨SmolVec.isHeap_extend_of v xs h, SmolVec.capacity_le_extend v xs⟩,
    ⟨SmolVec.isHeap_grow v, SmolVec.capacity_le_grow v⟩⟩
  · rw [SmolVec.isHeap_pop]
    exact h
  · exact Nat.le_of_eq (SmolVec.capacity_pop v).symm
  · rw [SmolVec.isHeap_clear]
    exact h
  · exact Nat.le_of_eq (SmolVec.capacity_clear v).symm

/-- Witness for C8 on a heap-mode container of capacity 17. -/
theorem heap_mode_monotone_witness :
    (SmolVec.with_capacity Nat 17).isHeap = true ∧
    ((((SmolVec.with_capacity Nat 17).push 5).isHeap = true ∧
        (SmolVec.with_capacity Nat 17).capacity ≤
          ((SmolVec.with_capacity Nat 17).push 5).capacity) ∧
      (((SmolVec.with_capacity Nat 17).pop).2.isHeap = true ∧
        (SmolVec.with_capacity Nat 17).capacity ≤
          ((SmolVec.with_capacity Nat 17).pop).2.capacity) ∧
      (((SmolVec.with_capacity Nat 17).clear).isHeap = true ∧
        (SmolVec.with_capacity Nat 17).capacity ≤
          ((SmolVec.with_capacity Nat 17).clear).capacity) ∧
      (((SmolVec.with_capacity Nat 17).extend [1, 2]).isHeap = true ∧
        (SmolVec.with_capacity Nat 17).capacity ≤
          ((SmolVec.with_capacity Nat 17).extend [1, 2]).capacity) ∧
      (((SmolVec.with_capacity Nat 17).grow).isHeap = true ∧
        (SmolVec.with_capacity Nat 17).capacity ≤
          ((SmolVec.with_capacity Nat 17).grow).capacity)) :=
  ⟨by decide, heap_mode_monotone (SmolVec.with_capacity Nat 17) 5 [1, 2] (by decide)⟩

/-- C9: PartialEq compares true exactly when lengths match and the sliced
element sequences are equal; two containers built by pushing the same
sequence compare equal, and appending one extra element to one of them makes
the comparison false. -/
theorem eq_iff_len_and_elements [BEq α] [LawfulBEq α] (v w : SmolVec α)
    (xs : List α) (x : α) :
    (v.eqv w = true ↔ v.len = w.len ∧ v.elems = w.elems) ∧
    (SmolVec.from_iter xs).eqv (SmolVec.from_iter xs) = true ∧
    ((SmolVec.from_iter xs).push x).eqv (SmolVec.from_iter xs) = false := by
  have hiff : ∀ a b : SmolVec α, a.eqv b = true ↔ a.len = b.len ∧ a.elems = b.elems := by
    intro a b
    unfold SmolVec.eqv
    rw [Bool.and_eq_true, beq_iff_eq, beq_iff_eq]
  refine ⟨hiff v w, (hiff _ _).mpr ⟨rfl, rfl⟩, ?_⟩
  have hlen : ((SmolVec.from_iter xs).push x).len = (SmolVec.from_iter xs).len + 1 :=
    SmolVec.len_pushRaw _ _
  have hne : (((SmolVec.from_iter xs).len + 1) == (SmolVec.from_iter xs).len) = false := by
    rw [beq_eq_false_iff_ne]
    omega
  unfold SmolVec.eqv
  rw [hlen, hne, Bool.false_and]

/-- Witness for C9 at element type Nat. -/
theorem eq_iff_len_and_elements_witness :
    ((SmolVec.new Nat).eqv (SmolVec.new Nat) = true ↔
      (SmolVec.new Nat).len = (SmolVec.new Nat).len ∧
      (SmolVec.new Nat).elems = (SmolVec.new Nat).elems) ∧
    (SmolVec.from_iter [1, 2]).eqv (SmolVec.from_iter [1, 2]) = true ∧
    ((SmolVec.from_iter [1, 2]).push 3).eqv (SmolVec.from_iter [1, 2]) = false :=
  eq_iff_len_and_elements (SmolVec.new Nat) (SmolVec.new Nat) [1, 2] 3

/-- C10: every container reachable through the public interface has capacity
at least INLINE_CAPACITY, hence never 0; with_capacity maps every request
≤ INLINE_CAPACITY to the Inline variant; consequently the `capacity() == 0`
special case of the growth engine cannot fire on a reachable container —
grow always takes the doubling branch. -/
theorem reachable_capacity_positive (v : SmolVec α) (c : Nat)
    (h : Reachable v) (hc : c ≤ INLINE_CAPACITY) :
    INLINE_CAPACITY ≤ v.capacity ∧ v.capacity ≠ 0 ∧
    (SmolVec.with_capacity α c).isHeap = false ∧
    (v.grow).capacity = v.capacity * 2 := by
  have h1 := reachable_inline_le_capacity h
  have hnz : ¬ v.capacity = 0 := by
    unfold INLINE_CAPACITY at h1
    omega
  refine ⟨h1, hnz, SmolVec.isHeap_with_capacity_le hc, ?_⟩
  rw [SmolVec.capacity_grow, if_neg hnz]

/-- Witness for C10 on the freshly created container. -/
theorem reachable_capacity_positive_witness :
    Reachable (SmolVec.new Nat) ∧ 5 ≤ INLINE_CAPACITY ∧
    (INLINE_CAPACITY ≤ (SmolVec.new Nat).capacity ∧ (SmolVec.new Nat).capacity ≠ 0 ∧
      (SmolVec.with_capacity Nat 5).isHeap = false ∧
      ((SmolVec.new Nat).grow).capacity = (SmolVec.new Nat).capacity * 2) :=
  ⟨Reachable.new, by decide,
    reachable_capacity_positive (SmolVec.new Nat) 5 Reachable.new (by decide)⟩
